import Mathlib

/-!
Shallow embedding of the attachment-handling core of the repository
(`codex-rs/core/src/attachment_handler.rs` and
`codex-rs/core/src/file_path_detection.rs`).

Rust strings are embedded as `List Char` (byte offsets of the ASCII data
handled by this core coincide with character offsets); file bytes are
embedded as `List Nat` with every element `< 256`.  Fallible operations
return `Except CodexErr`.  The filesystem is an explicit state value
threaded through the operations that touch disk.
-/

/-- The standard base64 alphabet, in index order, as used by
`base64::engine::general_purpose::STANDARD`. -/
def base64Alphabet : List Char :=
  ("ABCDEFGHIJKLMNOPQRSTUVWXYZabcdefghijklmnopqrstuvwxyz0123456789+/".data)

/-- Character of a 6-bit index (model of the encode table of the external
`base64` crate's STANDARD engine). -/
def idxToChar (i : Nat) : Char :=
  (base64Alphabet.get? i).getD ('A')

/-- Index of a base64 character, `none` for characters outside the standard
alphabet (model of the decode table of the `base64` crate). -/
def charToIdx (c : Char) : Option Nat :=
  base64Alphabet.indexOf? c

/-- Base64 encoding with the standard alphabet and `=` padding (model of
`general_purpose::STANDARD.encode`).  Input bytes are `Nat`s `< 256`. -/
def encodeBase64 : List Nat → List Char
  | [] => []
  | [a] => [idxToChar (a / 4), idxToChar (a % 4 * 16), '=', '=']
  | [a, b] => [idxToChar (a / 4), idxToChar (a % 4 * 16 + b / 16),
      idxToChar (b % 16 * 4), '=']
  | a :: b :: c :: rest =>
      idxToChar (a / 4) :: idxToChar (a % 4 * 16 + b / 16) ::
      idxToChar (b % 16 * 4 + c / 64) :: idxToChar (c % 64) :: encodeBase64 rest

/-- Strict base64 decoding with the standard alphabet (model of
`general_purpose::STANDARD.decode`): the length must be a multiple of four,
`=` padding is allowed only at the end and must be canonical (the unused
trailing bits of the final quantum must be zero), and any character outside
the alphabet is rejected. -/
def decodeBase64 : List Char → Option (List Nat)
  | [] => some []
  | c1 :: c2 :: c3 :: c4 :: rest =>
      match charToIdx c1, charToIdx c2 with
      | some i1, some i2 =>
          if c3 = '=' then
            if c4 = '=' ∧ rest = [] ∧ i2 % 16 = 0 then
              some [i1 * 4 + i2 / 16]
            else none
          else
            match charToIdx c3 with
            | some i3 =>
                if c4 = '=' then
                  if rest = [] ∧ i3 % 4 = 0 then
                    some [i1 * 4 + i2 / 16, i2 % 16 * 16 + i3 / 4]
                  else none
                else
                  match charToIdx c4 with
                  | some i4 =>
                      (decodeBase64 rest).map (fun tail =>
                        (i1 * 4 + i2 / 16) :: (i2 % 16 * 16 + i3 / 4) ::
                        (i3 % 4 * 64 + i4) :: tail)
                  | none => none
            | none => none
      | _, _ => none
  | _ => none

/-- Auxiliary form of `splitOnChar` returning the first segment and the list
of remaining segments (so that the result is non-empty by construction). -/
def splitOnCharAux (sep : Char) : List Char → List Char × List (List Char)
  | [] => ([], [])
  | c :: rest =>
      let p := splitOnCharAux sep rest
      if c = sep then ([], p.1 :: p.2) else (c :: p.1, p.2)

/-- Model of Rust `str::split(sep)` collected into a `Vec`: splits at every
occurrence of `sep`; the result always has at least one element, and has
`k + 1` elements when `sep` occurs `k` times. -/
def splitOnChar (sep : Char) (l : List Char) : List (List Char) :=
  (splitOnCharAux sep l).1 :: (splitOnCharAux sep l).2

/-- The error type of the attachment core: the constructors model the
variants of `CodexErr` that this code can produce — `CodexErr::Other(msg)`,
the converted `base64::DecodeError`, and the converted `std::io::Error`. -/
inductive CodexErr where
  | other : List Char → CodexErr
  | decodeErr : CodexErr
  | ioErr : CodexErr
deriving DecidableEq, Repr

/-- Message of the first format error of `save_data_url_to_file`. -/
def invalidFormatMsg (u : List Char) : List Char :=
  ("Invalid data URL format: ".data) ++ u

/-- Message of the MIME format error of `save_data_url_to_file`. -/
def invalidMimeMsg (u : List Char) : List Char :=
  ("Invalid MIME type in data URL: ".data) ++ u

/-- Message of the base64-part format error of `save_data_url_to_file`. -/
def invalidBase64Msg (u : List Char) : List Char :=
  ("Invalid base64 data in data URL: ".data) ++ u

/-- The parse-and-base64-decode performed by `save_data_url_to_file`
(`attachment_handler.rs` lines 49–64): split on `;` (at least two parts),
split the first part on `:` (at least two parts), split the second part on
`,` (at least two parts), then strictly base64-decode the second of those. -/
def parseDataUrl (data_url : List Char) : Except CodexErr (List Nat) :=
  let parts := splitOnChar (';') data_url
  if parts.length < 2 then
    Except.error (CodexErr.other (invalidFormatMsg data_url))
  else
    let mime_parts := splitOnChar (':') (parts.getD 0 [])
    if mime_parts.length < 2 then
      Except.error (CodexErr.other (invalidMimeMsg data_url))
    else
      let base64_parts := splitOnChar (',') (parts.getD 1 [])
      if base64_parts.length < 2 then
        Except.error (CodexErr.other (invalidBase64Msg data_url))
      else
        match decodeBase64 (base64_parts.getD 1 []) with
        | some bytes => Except.ok bytes
        | none => Except.error CodexErr.decodeErr

/-- Abstract filesystem state: an association list from paths (strings) to
regular-file contents (bytes), plus the set of directories known to exist.
`std::fs` I/O failures other than "no regular file at this path" are
abstracted away: reads fail exactly on absent paths, directory creation and
writes succeed.  Paths are uninterpreted strings (no `..` resolution). -/
structure FileSystem where
  files : List (List Char × List Nat)
  dirs : List (List Char)
deriving DecidableEq, Repr

/-- Content of the regular file at `p`, if any (first binding wins, so an
update by `writeFile` shadows older content). -/
def lookupFile (fs : FileSystem) (p : List Char) : Option (List Nat) :=
  fs.files.lookup p

/-- Model of `std::fs::File::create` + `write_all`: (over)writes `p`. -/
def writeFile (fs : FileSystem) (p : List Char) (bytes : List Nat) : FileSystem :=
  { fs with files := (p, bytes) :: fs.files }

/-- Model of `std::fs::create_dir_all`: records the directory as existing
(intermediate directories are abstracted into the same record). -/
def createDirAll (fs : FileSystem) (d : List Char) : FileSystem :=
  { fs with dirs := d :: fs.dirs }

/-- Model of Unix `Path::join(dir, name)`: an absolute `name` replaces `dir`
entirely; otherwise the two are joined with a single `/` separator. -/
def pathJoin (dir nm : List Char) : List Char :=
  if nm.head? = some ('/') then nm
  else if dir = [] then nm
  else if dir.getLast? = some ('/') then dir ++ nm
  else dir ++ ('/') :: nm

/-- Model of Unix `Path::file_name().and_then(to_str)`: the last `/`-separated
component after dropping empty and `.` components; `none` for the empty
path, the root path, and paths ending in `..`. -/
def fileName (p : List Char) : Option (List Char) :=
  let comps := (splitOnChar ('/') p).filter (fun c => ¬(c = [] ∨ c = ['.']))
  match comps.getLast? with
  | none => none
  | some c => if c = ('.' :: ['.']) then none else some c

/-- Model of Unix `Path::extension`: the part of the file name after its last
`.`, with no extension for a lone leading dot (hidden files) or no dot. -/
def extensionOf (p : List Char) : Option (List Char) :=
  (fileName p).bind (fun n =>
    let parts := splitOnChar ('.') n
    if parts.length ≤ 1 then none
    else if parts.headD [] = [] ∧ parts.length = 2 then none
    else parts.getLast?)

/-- Model of the external `mime_guess::from_path(..).first_or_octet_stream()`
call: a finite extension table with the documented
`application/octet-stream` fallback (spec §4.3). -/
def mimeFromPath (p : List Char) : List Char :=
  match extensionOf p with
  | some e =>
      if e = ("txt".data) then ("text/plain".data)
      else if e = ("csv".data) then ("text/csv".data)
      else if e = ("json".data) then ("application/json".data)
      else if e = ("png".data) then ("image/png".data)
      else ("application/octet-stream".data)
  | none => ("application/octet-stream".data)

/-- `file_to_data_url` (`attachment_handler.rs` lines 11–20): read the file,
base64-encode it, and produce `"data:" MIME ";base64," PAYLOAD`. -/
def file_to_data_url (fs : FileSystem) (path : List Char) :
    Except CodexErr (List Char) :=
  match lookupFile fs path with
  | none => Except.error CodexErr.ioErr
  | some content =>
      Except.ok (("data:".data) ++ mimeFromPath path ++ (";base64,".data) ++
        encodeBase64 content)

/-- The wire attachment descriptor `{type: "file", name, content}`; the
`type` field is the fixed literal and is not modelled.  Inbound descriptors
may lack either string field, hence the `Option`s (`as_str` failure). -/
structure AttachmentJson where
  name : Option (List Char)
  content : Option (List Char)
deriving DecidableEq, Repr

/-- `file_to_attachment` (`attachment_handler.rs` lines 22–33): build the
data URL first (so a read failure wins), then extract the base file name,
failing with `CodexErr::Other("Invalid file name")` if there is none. -/
def file_to_attachment (fs : FileSystem) (path : List Char) :
    Except CodexErr AttachmentJson :=
  match file_to_data_url fs path with
  | Except.error e => Except.error e
  | Except.ok data_url =>
      match fileName path with
      | none => Except.error (CodexErr.other ("Invalid file name".data))
      | some filename => Except.ok ⟨some filename, some data_url⟩

/-- `files_to_attachments` (`attachment_handler.rs` lines 35–44): encode each
path in order, propagating the first failure via `?`. -/
def files_to_attachments (fs : FileSystem) :
    List (List Char) → Except CodexErr (List AttachmentJson)
  | [] => Except.ok []
  | p :: rest =>
      match file_to_attachment fs p with
      | Except.error e => Except.error e
      | Except.ok a => (files_to_attachments fs rest).map (fun l => a :: l)

/-- `save_data_url_to_file` (`attachment_handler.rs` lines 46–76): parse and
decode the data URL, create the save directory, and write the bytes to
`save_dir.join(filename)`, returning the written path. -/
def save_data_url_to_file (fs : FileSystem)
    (data_url filename save_dir : List Char) :
    Except CodexErr (List Char × FileSystem) :=
  match parseDataUrl data_url with
  | Except.error e => Except.error e
  | Except.ok decoded =>
      let fs1 := createDirAll fs save_dir
      let file_path := pathJoin save_dir filename
      Except.ok (file_path, writeFile fs1 file_path decoded)

/-- `process_attachment` (`attachment_handler.rs` lines 78–86): require the
`content` and `name` string fields, then delegate to
`save_data_url_to_file`. -/
def process_attachment (fs : FileSystem) (att : AttachmentJson)
    (save_dir : List Char) : Except CodexErr (List Char × FileSystem) :=
  match att.content with
  | none => Except.error (CodexErr.other ("Attachment missing content field".data))
  | some content =>
      match att.name with
      | none => Except.error (CodexErr.other ("Attachment missing name field".data))
      | some filename => save_data_url_to_file fs content filename save_dir

/-- `process_attachments` (`attachment_handler.rs` lines 88–97): save each
descriptor in order, threading the filesystem, propagating the first
failure via `?`. -/
def process_attachments (fs : FileSystem) (atts : List AttachmentJson)
    (save_dir : List Char) :
    Except CodexErr (List (List Char) × FileSystem) :=
  match atts with
  | [] => Except.ok ([], fs)
  | a :: rest =>
      match process_attachment fs a save_dir with
      | Except.error e => Except.error e
      | Except.ok (p, fs1) =>
          (process_attachments fs1 rest save_dir).map (fun r => (p :: r.1, r.2))

/-- `default_attachment_dir` (`attachment_handler.rs` lines 99–102):
`dirs::home_dir()` is modelled by the `home` argument; a missing home
falls back to `"."`, then `.codex/attachments` is joined on. -/
def default_attachment_dir (home : Option (List Char)) : List Char :=
  pathJoin (pathJoin (home.getD (".".data)) (".codex".data)) ("attachments".data)

/-- `should_process_remotely` (`file_path_detection.rs` lines 111–122):
`false` unless the path is a regular file whose metadata length is strictly
below 10 MiB.  (`is_file()` and `metadata()` are served by the same
`FileSystem` state, so the metadata of an existing file always resolves.) -/
def should_process_remotely (fs : FileSystem) (path : List Char) : Bool :=
  match lookupFile fs path with
  | none => false
  | some content => content.length < 10 * 1024 * 1024

/-! Embedding of `file_path_detection.rs`.  The five `lazy_static` patterns
are simple enough (a literal head followed by a greedy character class) to
embed as explicit leftmost-match-length functions with the exact semantics
of the `regex` crate on them.  Note that in the path class (dash written
between dot and slash) that dash denotes a character *range* from dot to
slash, so the dash itself is not in the class; likewise the Windows class
contains the codepoint range 46 to 92 (dot through backslash). -/

/-- The character class shared by `UNIX_PATH_REGEX`, `RELATIVE_PATH_REGEX`
and `HOME_PATH_REGEX`: alphanumerics, underscore, and the dot-to-slash
range, i.e. dot and slash. -/
def pathClassChar (c : Char) : Bool :=
  c.isAlphanum || c == '_' || c == '.' || c == '/'

/-- The character class of `URL_REGEX`: `[\w\./\?\-_%&=]` (ASCII view). -/
def urlClassChar (c : Char) : Bool :=
  c.isAlphanum || c == '_' || c == '.' || c == '/' || c == '?' ||
  c == '-' || c == '%' || c == '&' || c == '='

/-- The character class of `WINDOWS_PATH_REGEX`: alphanumerics, underscore,
and the dot-to-backslash codepoint range 46–92. -/
def winClassChar (c : Char) : Bool :=
  c.isAlphanum || c == '_' || (decide (46 ≤ c.toNat) && decide (c.toNat ≤ 92))

/-- Length of the maximal leading run of class characters (a greedy `+`
matches this run; the match fails when it is zero). -/
def classRun (p : Char → Bool) : List Char → Nat
  | [] => 0
  | c :: rest => if p c then classRun p rest + 1 else 0

/-- Length of the `URL_REGEX` match (`https?://[\w\./\?\-_%&=]+`) starting
exactly at the head of `l`, if any. -/
def urlMatchLen (l : List Char) : Option Nat :=
  if ("https://".data).isPrefixOf l then
    let n := classRun urlClassChar (l.drop 8)
    if n = 0 then none else some (8 + n)
  else if ("http://".data).isPrefixOf l then
    let n := classRun urlClassChar (l.drop 7)
    if n = 0 then none else some (7 + n)
  else none

/-- Length of the `UNIX_PATH_REGEX` match (a slash followed by one or more
path-class characters, greedy) at the head of `l`, if any. -/
def unixMatchLen (l : List Char) : Option Nat :=
  match l with
  | c :: rest =>
      if c = '/' then
        let n := classRun pathClassChar rest
        if n = 0 then none else some (n + 1)
      else none
  | [] => none

/-- Length of the `RELATIVE_PATH_REGEX` match (a dot, a slash, then one or
more path-class characters, greedy) at the head of `l`, if any. -/
def relMatchLen (l : List Char) : Option Nat :=
  if ("./".data).isPrefixOf l then
    let n := classRun pathClassChar (l.drop 2)
    if n = 0 then none else some (2 + n)
  else none

/-- Length of the `HOME_PATH_REGEX` match (a tilde, a slash, then one or
more path-class characters, greedy) at the head of `l`, if any. -/
def homeMatchLen (l : List Char) : Option Nat :=
  if ("~/".data).isPrefixOf l then
    let n := classRun pathClassChar (l.drop 2)
    if n = 0 then none else some (2 + n)
  else none

/-- Length of the `WINDOWS_PATH_REGEX` match (a letter, a colon, a
backslash, then one or more Windows-class characters, greedy) at the head
of `l`, if any. -/
def winMatchLen (l : List Char) : Option Nat :=
  match l with
  | c1 :: c2 :: c3 :: rest =>
      if c1.isAlpha ∧ c2 = ':' ∧ c3 = '\\' then
        let n := classRun winClassChar rest
        if n = 0 then none else some (3 + n)
      else none
  | _ => none

/-- Fueled scan of `Regex::replace_all(input, "")`: at each position, if a
match (of length `n + 1 ≥ 1`) starts here, drop it and continue after it,
otherwise keep the character.  One unit of fuel is spent per consumed
character, so `fuel = l.length` never runs out. -/
def replaceAllAux (ml : List Char → Option Nat) : Nat → List Char → List Char
  | 0, l => l
  | _ + 1, [] => []
  | fuel + 1, c :: rest =>
      match ml (c :: rest) with
      | some (n + 1) => replaceAllAux ml fuel (rest.drop n)
      | _ => c :: replaceAllAux ml fuel rest

/-- `Regex::replace_all(l, "")` for the simple patterns above: removes every
(leftmost, non-overlapping) match. -/
def replaceAll (ml : List Char → Option Nat) (l : List Char) : List Char :=
  replaceAllAux ml l.length l

/-- Fueled scan of `Regex::captures_iter`: the list of (leftmost,
non-overlapping) matched substrings. -/
def findMatchesAux (ml : List Char → Option Nat) :
    Nat → List Char → List (List Char)
  | 0, _ => []
  | _ + 1, [] => []
  | fuel + 1, c :: rest =>
      match ml (c :: rest) with
      | some (n + 1) => ((c :: rest).take (n + 1)) :: findMatchesAux ml fuel (rest.drop n)
      | _ => findMatchesAux ml fuel rest

/-- `Regex::captures_iter(l)` collected as matched substrings. -/
def findMatches (ml : List Char → Option Nat) (l : List Char) : List (List Char) :=
  findMatchesAux ml l.length l

/-- The characters trimmed from both ends of every raw match:
`" '\"()".contains(c)`. -/
def isTrimChar (c : Char) : Bool :=
  c == ' ' || c == '\'' || c == '"' || c == '(' || c == ')'

/-- Model of `str::trim_matches` with the character set above. -/
def trimMatches (l : List Char) : List Char :=
  ((l.dropWhile isTrimChar).reverse.dropWhile isTrimChar).reverse

/-- Model of `str::strip_prefix(c).unwrap_or(s)`: drop a single leading `c`
if present. -/
def stripLeadChar (c : Char) (l : List Char) : List Char :=
  match l with
  | [] => []
  | x :: rest => if x = c then rest else x :: rest

/-- `path.exists() && path.is_file()` against the abstract filesystem. -/
def existsIsFile (fs : FileSystem) (p : List Char) : Bool :=
  (lookupFile fs p).isSome

/-- One grammar loop of `detect_local_file_paths` (for the Unix, relative and
Windows grammars): trim each raw match and keep it when it names an
existing regular file. -/
def detectWithGrammar (fs : FileSystem) (ml : List Char → Option Nat)
    (stripped : List Char) : List (List Char) :=
  (findMatches ml stripped).filterMap (fun m =>
    let p := trimMatches m
    if existsIsFile fs p then some p else none)

/-- The home-relative loop of `detect_local_file_paths`: when a home
directory resolves, strip `~` and a leading `/`, join onto home, and keep
existing regular files; when it does not, drop the match. -/
def detectHome (fs : FileSystem) (home : Option (List Char))
    (stripped : List Char) : List (List Char) :=
  (findMatches homeMatchLen stripped).filterMap (fun m =>
    let p := trimMatches m
    match home with
    | none => none
    | some h =>
        let p1 := stripLeadChar ('~') p
        let p2 := pathJoin h (stripLeadChar ('/') p1)
        if existsIsFile fs p2 then some p2 else none)

/-- `detect_local_file_paths` (`file_path_detection.rs` lines 30–77):
strip URL matches from the input, then run the four path grammars against
the stripped copy, in source order, concatenating their results.
`dirs::home_dir()` is modelled by the `home` argument. -/
def detect_local_file_paths (fs : FileSystem) (home : Option (List Char))
    (input : List Char) : List (List Char) :=
  let stripped := replaceAll urlMatchLen input
  detectWithGrammar fs unixMatchLen stripped ++
  detectWithGrammar fs relMatchLen stripped ++
  detectHome fs home stripped ++
  detectWithGrammar fs winMatchLen stripped

/-- `FilePathHandlingOption` (`file_path_detection.rs` lines 16–21). -/
inductive FilePathHandlingOption where
  | Upload
  | ProcessLocally
  | Cancel
deriving DecidableEq, Repr

/-- `prompt_for_file_path_handling` (`file_path_detection.rs` lines
107–109): the fixed stub always answers `Upload`. -/
def prompt_for_file_path_handling (_paths : List (List Char)) :
    FilePathHandlingOption :=
  FilePathHandlingOption.Upload

/-- Model of `str::find`: index of the first position where `needle` starts,
scanning `hay` from the left. -/
def strFind (needle : List Char) : List Char → Option Nat
  | [] => if needle.isPrefixOf [] then some 0 else none
  | c :: rest =>
      if needle.isPrefixOf (c :: rest) then some 0
      else (strFind needle rest).map (fun i => i + 1)

/-- Fueled model of the occurrence-scanning loop of
`substitute_file_paths_with_urls`: find the leftmost occurrence at or after
`start`, record its absolute position, and continue from one character
later.  Fuel `hay.length + 1 - start` suffices for a non-empty needle, for
which the loop ends naturally via an unsuccessful find; for the empty
needle the Rust loop would slice out of bounds and panic, which the fuel
bound cuts off instead. -/
def collectOccAux (needle hay : List Char) : Nat → Nat → List Nat
  | 0, _ => []
  | fuel + 1, start =>
      match strFind needle (hay.drop start) with
      | none => []
      | some pos => (start + pos) :: collectOccAux needle hay fuel (start + pos + 1)

/-- All occurrence positions of `needle` in `hay` at or after `start`, with
the `+ 1` stepping of the source (overlapping occurrences included). -/
def collectOccurrences (needle hay : List Char) (start : Nat) : List Nat :=
  collectOccAux needle hay (hay.length + 1 - start) start

/-- A recorded span `(start, end, path, url)`, as in the source's
`path_positions` vector. -/
abbrev Span := Nat × Nat × List Char × List Char

/-- Stable insertion of a span into a list sorted by descending start. -/
def insertSpanDesc (x : Span) : List Span → List Span
  | [] => [x]
  | y :: ys => if y.1 ≤ x.1 then x :: y :: ys else y :: insertSpanDesc x ys

/-- The source's `sort_by(|a, b| b.0.cmp(&a.0))`: a stable sort by
descending start offset (insertion sort is extensionally identical to any
stable sort under the same key). -/
def sortSpansDesc (l : List Span) : List Span :=
  l.foldr insertSpanDesc []

/-- Model of `String::replace_range(start..stop, r)`. -/
def replaceRange (s : List Char) (start stop : Nat) (r : List Char) : List Char :=
  s.take start ++ r ++ s.drop stop

/-- `substitute_file_paths_with_urls` (`file_path_detection.rs` lines
79–105): record a span for every occurrence of every pair's path in the
(unmodified) input, pool them, sort by descending start, then replace
right-to-left. -/
def substitute_file_paths_with_urls (input : List Char)
    (path_url_map : List (List Char × List Char)) : List Char :=
  let path_positions : List Span := path_url_map.foldl (fun acc pu =>
      acc ++ (collectOccurrences pu.1 input 0).map
        (fun s => (s, s + pu.1.length, pu.1, pu.2))) []
  let sorted := sortSpansDesc path_positions
  sorted.foldl (fun res sp => replaceRange res sp.1 sp.2.1 sp.2.2.2) input

/-! Lemmas about the base64 codec. -/

theorem charToIdx_idxToChar : ∀ i : Nat, i < 64 → charToIdx (idxToChar i) = some i := by
  decide

theorem idxToChar_mem (i : Nat) : idxToChar i ∈ base64Alphabet := by
  unfold idxToChar
  cases h : base64Alphabet.get? i with
  | none => simp [Option.getD]; decide
  | some c =>
      simp only [Option.getD]
      exact List.get?_mem h

theorem encodeBase64_mem :
    ∀ l : List Nat, ∀ c ∈ encodeBase64 l, c ∈ base64Alphabet ∨ c = '='
  | [], c => by simp [encodeBase64]
  | [a], c => by
      simp only [encodeBase64, List.mem_cons, List.not_mem_nil, or_false]
      rintro (rfl | rfl | rfl | rfl)
      · exact Or.inl (idxToChar_mem _)
      · exact Or.inl (idxToChar_mem _)
      · exact Or.inr rfl
      · exact Or.inr rfl
  | [a, b], c => by
      simp only [encodeBase64, List.mem_cons, List.not_mem_nil, or_false]
      rintro (rfl | rfl | rfl | rfl)
      · exact Or.inl (idxToChar_mem _)
      · exact Or.inl (idxToChar_mem _)
      · exact Or.inl (idxToChar_mem _)
      · exact Or.inr rfl
  | a :: b :: d :: rest, c => by
      simp only [encodeBase64, List.mem_cons]
      rintro (rfl | rfl | rfl | rfl | hm)
      · exact Or.inl (idxToChar_mem _)
      · exact Or.inl (idxToChar_mem _)
      · exact Or.inl (idxToChar_mem _)
      · exact Or.inl (idxToChar_mem _)
      · exact encodeBase64_mem rest c hm

theorem semicolon_not_mem_encodeBase64 (l : List Nat) :
    (';') ∉ encodeBase64 l := by
  intro h
  rcases encodeBase64_mem l _ h with hm | he
  · revert hm; decide
  · revert he; decide

theorem comma_not_mem_encodeBase64 (l : List Nat) :
    (',') ∉ encodeBase64 l := by
  intro h
  rcases encodeBase64_mem l _ h with hm | he
  · revert hm; decide
  · revert he; decide

theorem idxToChar_ne_eq (i : Nat) : idxToChar i ≠ '=' := by
  intro h
  have := idxToChar_mem i
  rw [h] at this
  revert this; decide

theorem decodeBase64_encodeBase64 :
    ∀ l : List Nat, (∀ x ∈ l, x < 256) → decodeBase64 (encodeBase64 l) = some l
  | [], _ => rfl
  | [a], h => by
      have ha : a < 256 := h a (by simp)
      have e1 : charToIdx (idxToChar (a / 4)) = some (a / 4) :=
        charToIdx_idxToChar _ (by omega)
      have e2 : charToIdx (idxToChar (a % 4 * 16)) = some (a % 4 * 16) :=
        charToIdx_idxToChar _ (by omega)
      have hz : a % 4 * 16 % 16 = 0 := by omega
      simp [encodeBase64, decodeBase64, e1, e2, hz]
      omega
  | [a, b], h => by
      have ha : a < 256 := h a (by simp)
      have hb : b < 256 := h b (by simp)
      have e1 : charToIdx (idxToChar (a / 4)) = some (a / 4) :=
        charToIdx_idxToChar _ (by omega)
      have e2 : charToIdx (idxToChar (a % 4 * 16 + b / 16)) =
          some (a % 4 * 16 + b / 16) := charToIdx_idxToChar _ (by omega)
      have e3 : charToIdx (idxToChar (b % 16 * 4)) = some (b % 16 * 4) :=
        charToIdx_idxToChar _ (by omega)
      have n3 : idxToChar (b % 16 * 4) ≠ '=' := idxToChar_ne_eq _
      have hz : b % 16 * 4 % 4 = 0 := by omega
      simp [encodeBase64, decodeBase64, e1, e2, e3, n3, hz]
      constructor
      · omega
      · omega
  | a :: b :: c :: rest, h => by
      have ha : a < 256 := h a (by simp)
      have hb : b < 256 := h b (by simp)
      have hc : c < 256 := h c (by simp)
      have ih := decodeBase64_encodeBase64 rest
        (fun x hx => h x (by simp [hx]))
      have e1 : charToIdx (idxToChar (a / 4)) = some (a / 4) :=
        charToIdx_idxToChar _ (by omega)
      have e2 : charToIdx (idxToChar (a % 4 * 16 + b / 16)) =
          some (a % 4 * 16 + b / 16) := charToIdx_idxToChar _ (by omega)
      have e3 : charToIdx (idxToChar (b % 16 * 4 + c / 64)) =
          some (b % 16 * 4 + c / 64) := charToIdx_idxToChar _ (by omega)
      have e4 : charToIdx (idxToChar (c % 64)) = some (c % 64) :=
        charToIdx_idxToChar _ (by omega)
      have n3 : idxToChar (b % 16 * 4 + c / 64) ≠ '=' := idxToChar_ne_eq _
      have n4 : idxToChar (c % 64) ≠ '=' := idxToChar_ne_eq _
      simp [encodeBase64, decodeBase64, e1, e2, e3, e4, n3, n4, ih]
      refine ⟨by omega, by omega, by omega⟩

/-! Lemmas about `splitOnChar`. -/

theorem splitOnCharAux_of_not_mem {sep : Char} :
    ∀ {l : List Char}, sep ∉ l → splitOnCharAux sep l = (l, [])
  | [], _ => rfl
  | c :: rest, h => by
      have hc : ¬c = sep := fun he => h (by simp [he])
      have hr : sep ∉ rest := fun hm => h (by simp [hm])
      simp [splitOnCharAux, hc, splitOnCharAux_of_not_mem hr]

theorem splitOnChar_of_not_mem {sep : Char} {l : List Char} (h : sep ∉ l) :
    splitOnChar sep l = [l] := by
  simp [splitOnChar, splitOnCharAux_of_not_mem h]

theorem splitOnCharAux_append_cons {sep : Char} :
    ∀ {a : List Char}, sep ∉ a → ∀ b : List Char,
      splitOnCharAux sep (a ++ sep :: b) =
        (a, (splitOnCharAux sep b).1 :: (splitOnCharAux sep b).2)
  | [], _, b => by simp [splitOnCharAux]
  | c :: a', h, b => by
      have hc : ¬c = sep := fun he => h (by simp [he])
      have ha : sep ∉ a' := fun hm => h (by simp [hm])
      simp [splitOnCharAux, hc, splitOnCharAux_append_cons ha b]

theorem splitOnChar_append_cons {sep : Char} {a : List Char} (h : sep ∉ a)
    (b : List Char) :
    splitOnChar sep (a ++ sep :: b) = a :: splitOnChar sep b := by
  simp [splitOnChar, splitOnCharAux_append_cons h b]

theorem splitOnCharAux_snd_len {sep : Char} :
    ∀ {l : List Char}, sep ∈ l → 1 ≤ (splitOnCharAux sep l).2.length
  | c :: rest, h => by
      by_cases hc : c = sep
      · simp [splitOnCharAux, hc]
      · have hr : sep ∈ rest := by
          rcases List.mem_cons.mp h with he | hm
          · exact absurd he.symm hc
          · exact hm
        have := splitOnCharAux_snd_len hr
        simp [splitOnCharAux, hc]
        omega

theorem splitOnChar_length_ge_two {sep : Char} {l : List Char} (h : sep ∈ l) :
    2 ≤ (splitOnChar sep l).length := by
  have := splitOnCharAux_snd_len h
  simp [splitOnChar]
  omega

/-! The shape of `parseDataUrl` on a structurally well-formed input
`S ; M , P T` where `T` is empty or starts another `;`-separated part. -/

theorem parseDataUrl_shape (S M P T : List Char)
    (hScolon : (':') ∈ S) (hS : (';') ∉ S)
    (hM1 : (';') ∉ M) (hM2 : (',') ∉ M)
    (hP1 : (';') ∉ P) (hP2 : (',') ∉ P)
    (hT : T = [] ∨ ∃ r, T = (';') :: r) :
    parseDataUrl (S ++ (';') :: M ++ (',') :: P ++ T) =
      match decodeBase64 P with
      | some bytes => Except.ok bytes
      | none => Except.error CodexErr.decodeErr := by
  have hmid : (';') ∉ M ++ (',') :: P := by
    simp only [List.mem_append, List.mem_cons, not_or]
    exact ⟨hM1, by decide, hP1⟩
  have hassoc : S ++ (';') :: M ++ (',') :: P ++ T =
      S ++ (';') :: ((M ++ (',') :: P) ++ T) := by
    simp [List.append_assoc]
  obtain ⟨ts, hparts⟩ : ∃ ts,
      splitOnChar (';') (S ++ (';') :: M ++ (',') :: P ++ T) =
        S :: (M ++ (',') :: P) :: ts := by
    rw [hassoc, splitOnChar_append_cons hS]
    rcases hT with rfl | ⟨r, rfl⟩
    · rw [List.append_nil, splitOnChar_of_not_mem hmid]
      exact ⟨[], rfl⟩
    · rw [splitOnChar_append_cons hmid]
      exact ⟨_, rfl⟩
  have hb64 : splitOnChar (',') (M ++ (',') :: P) = [M, P] := by
    rw [splitOnChar_append_cons hM2, splitOnChar_of_not_mem hP2]
  have hmime := splitOnChar_length_ge_two hScolon
  unfold parseDataUrl
  rw [hparts]
  have hlen : ¬(S :: (M ++ (',') :: P) :: ts).length < 2 := by
    simp
  rw [if_neg hlen]
  have hg0 : (S :: (M ++ (',') :: P) :: ts).getD 0 [] = S := rfl
  have hg1 : (S :: (M ++ (',') :: P) :: ts).getD 1 [] = M ++ (',') :: P := rfl
  rw [hg0, hg1, if_neg (by omega), hb64]
  rfl

theorem semicolon_not_mem_mimeFromPath (p : List Char) :
    (';') ∉ mimeFromPath p := by
  unfold mimeFromPath
  cases extensionOf p with
  | none => decide
  | some e =>
      simp only
      split_ifs <;> decide

/-- C1: round trip through the codec — for every file content (including the
empty one), encoding with `file_to_data_url` and then running the
parse-and-base64-decode of `save_data_url_to_file` on the resulting data
URL yields exactly the original byte sequence. -/
theorem C1_codec_roundtrip (fs : FileSystem) (path : List Char)
    (content : List Nat) (hread : lookupFile fs path = some content)
    (hbytes : ∀ x ∈ content, x < 256) :
    ∃ url, file_to_data_url fs path = Except.ok url ∧
      parseDataUrl url = Except.ok content := by
  refine ⟨("data:".data) ++ mimeFromPath path ++ (";base64,".data) ++
    encodeBase64 content, ?_, ?_⟩
  · unfold file_to_data_url
    rw [hread]
  have hdecomp : ("data:".data) ++ mimeFromPath path ++ (";base64,".data) ++
      encodeBase64 content =
      (("data:".data) ++ mimeFromPath path) ++
        (';') :: ("base64".data) ++ (',') :: encodeBase64 content ++ ([]) := by
    have hmarker : (";base64,".data) = (';') :: ("base64".data) ++ [(',')] := rfl
    rw [hmarker]
    simp [List.append_assoc]
  rw [hdecomp]
  have h := parseDataUrl_shape (("data:".data) ++ mimeFromPath path)
    ("base64".data) (encodeBase64 content) []
    (List.mem_append.mpr (Or.inl (by decide)))
    (by
      simp only [List.mem_append, not_or]
      exact ⟨by decide, semicolon_not_mem_mimeFromPath path⟩)
    (by decide) (by decide)
    (semicolon_not_mem_encodeBase64 content)
    (comma_not_mem_encodeBase64 content)
    (Or.inl rfl)
  rw [h, decodeBase64_encodeBase64 content hbytes]

/-- Witness for C1 at a concrete one-file filesystem. -/
theorem C1_codec_roundtrip_witness :
    (lookupFile (FileSystem.mk [(("/d/hi.txt".data), [104, 105])] [])
        ("/d/hi.txt".data) = some [104, 105]) ∧
    (∀ x ∈ [104, 105], x < 256) ∧
    (∃ url,
      file_to_data_url (FileSystem.mk [(("/d/hi.txt".data), [104, 105])] [])
          ("/d/hi.txt".data) = Except.ok url ∧
      parseDataUrl url = Except.ok [104, 105]) :=
  ⟨by decide, by decide,
    C1_codec_roundtrip (FileSystem.mk [(("/d/hi.txt".data), [104, 105])] [])
      ("/d/hi.txt".data) [104, 105] (by decide) (by decide)⟩

/-- C2 counterexample: a data URL whose payload segment after the `,` is
empty is *not* rejected — the decode performed by `save_data_url_to_file`
succeeds and yields the empty byte sequence. -/
theorem C2_empty_payload_counterexample :
    parseDataUrl ("data:text/plain;base64,".data) = Except.ok [] := by
  rfl

/-- C2 (amended): a data URL with no `;` separator fails with the
`Invalid data URL format` error; one with a `;` but no `,` in its second
`;`-part fails with a typed format error; but an empty payload segment
after the `,` is accepted and decodes to zero bytes (no error). -/
theorem C2_malformed_dataurl_errors :
    (∀ u : List Char, (';') ∉ u →
      parseDataUrl u = Except.error (CodexErr.other (invalidFormatMsg u))) ∧
    (∀ a b : List Char, (';') ∉ a → (';') ∉ b → (',') ∉ b →
      ∃ m, parseDataUrl (a ++ (';') :: b) = Except.error (CodexErr.other m)) ∧
    (∀ S M : List Char, (':') ∈ S → (';') ∉ S → (';') ∉ M → (',') ∉ M →
      parseDataUrl (S ++ (';') :: M ++ [(',')]) = Except.ok []) := by
  refine ⟨?_, ?_, ?_⟩
  · intro u hu
    unfold parseDataUrl
    rw [splitOnChar_of_not_mem hu]
    rfl
  · intro a b ha hb hbc
    unfold parseDataUrl
    rw [splitOnChar_append_cons ha, splitOnChar_of_not_mem hb]
    by_cases hc : (':') ∈ a
    · have h2 := splitOnChar_length_ge_two hc
      refine ⟨invalidBase64Msg (a ++ (';') :: b), ?_⟩
      have hg1 : ([a, b].getD 1 []) = b := rfl
      have hg0 : ([a, b].getD 0 []) = a := rfl
      rw [if_neg (by simp), hg0, hg1, if_neg (by omega),
        splitOnChar_of_not_mem hbc]
      rfl
    · refine ⟨invalidMimeMsg (a ++ (';') :: b), ?_⟩
      have hg0 : ([a, b].getD 0 []) = a := rfl
      rw [if_neg (by simp), hg0, splitOnChar_of_not_mem hc]
      rfl
  · intro S M hScolon hS hM1 hM2
    have h := parseDataUrl_shape S M [] [] hScolon hS hM1 hM2
      (by decide) (by decide) (Or.inl rfl)
    simpa [decodeBase64] using h

/-- Witness for the amended C2 at concrete malformed inputs. -/
theorem C2_malformed_dataurl_errors_witness :
    ((';') ∉ ("no separator at all".data)) ∧
    parseDataUrl ("no separator at all".data) =
      Except.error (CodexErr.other (invalidFormatMsg ("no separator at all".data))) :=
  ⟨by decide, C2_malformed_dataurl_errors.1 _ (by decide)⟩

/-- C10: the decoder of `save_data_url_to_file` never validates the scheme
text or the encoding marker — any `S;M,P` content with a `:` somewhere in
`S` and a standard-base64 `P` is accepted, the base64-decoding of `P` is
written, and extra `;`-separated trailing segments are ignored. -/
theorem C10_parser_ignores_scheme_and_marker (S M P T : List Char)
    (bytes : List Nat)
    (hScolon : (':') ∈ S) (hS : (';') ∉ S)
    (hM1 : (';') ∉ M) (hM2 : (',') ∉ M)
    (hP1 : (';') ∉ P) (hP2 : (',') ∉ P)
    (hT : T = [] ∨ ∃ r, T = (';') :: r)
    (hdec : decodeBase64 P = some bytes) :
    parseDataUrl (S ++ (';') :: M ++ (',') :: P ++ T) = Except.ok bytes ∧
    ∀ fs nm dir,
      save_data_url_to_file fs (S ++ (';') :: M ++ (',') :: P ++ T) nm dir =
        Except.ok (pathJoin dir nm,
          writeFile (createDirAll fs dir) (pathJoin dir nm) bytes) := by
  have h := parseDataUrl_shape S M P T hScolon hS hM1 hM2 hP1 hP2 hT
  have h2 : parseDataUrl (S ++ (';') :: M ++ (',') :: P ++ T) =
      Except.ok bytes := by rw [h, hdec]
  refine ⟨h2, fun fs nm dir => ?_⟩
  unfold save_data_url_to_file
  rw [h2]

/-- Witness for C10: scheme `x:y` (not `data:`), marker `m` (not `base64`),
a trailing `;junk` segment — decoding still succeeds with the payload. -/
theorem C10_parser_ignores_scheme_and_marker_witness :
    ((':') ∈ ("x:y".data)) ∧ ((';') ∉ ("x:y".data)) ∧
    ((';') ∉ ("m".data)) ∧ ((',') ∉ ("m".data)) ∧
    ((';') ∉ ("QQ==".data)) ∧ ((',') ∉ ("QQ==".data)) ∧
    (decodeBase64 ("QQ==".data) = some [65]) ∧
    parseDataUrl (("x:y".data) ++ (';') :: ("m".data) ++ (',') ::
      ("QQ==".data) ++ ((';') :: ("junk".data))) = Except.ok [65] :=
  ⟨by decide, by decide, by decide, by decide, by decide, by decide, by decide,
    (C10_parser_ignores_scheme_and_marker ("x:y".data) ("m".data)
      ("QQ==".data) ((';') :: ("junk".data)) [65]
      (by decide) (by decide) (by decide) (by decide) (by decide) (by decide)
      (Or.inr ⟨("junk".data), rfl⟩) (by decide)).1⟩

/-- C5: the remote-eligibility gate returns `false` for a path that is not a
regular file and for a regular file of size at least 10 MiB, and `true` for
a regular file strictly below that bound; the outcome is always a boolean,
never an error (the function is total into `Bool`). -/
theorem C5_remote_eligibility_gate (fs : FileSystem) (p : List Char) :
    (lookupFile fs p = none → should_process_remotely fs p = false) ∧
    (∀ c, lookupFile fs p = some c → 10 * 1024 * 1024 ≤ c.length →
      should_process_remotely fs p = false) ∧
    (∀ c, lookupFile fs p = some c → c.length < 10 * 1024 * 1024 →
      should_process_remotely fs p = true) := by
  refine ⟨fun h => by simp [should_process_remotely, h],
    fun c h hle => ?_, fun c h hlt => ?_⟩
  · simp only [should_process_remotely, h]
    simp only [decide_eq_false_iff_not]
    omega
  · simp only [should_process_remotely, h]
    simp only [decide_eq_true_eq]
    omega

/-- Witness for C5: a 1-byte file is eligible, a 10 MiB file is not. -/
theorem C5_remote_eligibility_gate_witness :
    (lookupFile (FileSystem.mk [(("/small".data), [7])] []) ("/small".data) =
      some [7]) ∧
    should_process_remotely (FileSystem.mk [(("/small".data), [7])] [])
      ("/small".data) = true ∧
    (lookupFile
        (FileSystem.mk [(("/big".data), List.replicate (10 * 1024 * 1024) 0)] [])
        ("/big".data) = some (List.replicate (10 * 1024 * 1024) 0)) ∧
    should_process_remotely
      (FileSystem.mk [(("/big".data), List.replicate (10 * 1024 * 1024) 0)] [])
      ("/big".data) = false :=
  ⟨rfl,
    (C5_remote_eligibility_gate (FileSystem.mk [(("/small".data), [7])] [])
      ("/small".data)).2.2 [7] rfl (by decide),
    rfl,
    (C5_remote_eligibility_gate
      (FileSystem.mk [(("/big".data), List.replicate (10 * 1024 * 1024) 0)] [])
      ("/big".data)).2.1 (List.replicate (10 * 1024 * 1024) 0) rfl
      (by rw [List.length_replicate])⟩

/-- C7 counterexample: for the root path (which has no extractable file-name
component) `file_to_attachment` fails with the I/O error from the preceding
read, not with the `Invalid file name` validation error the claim
prescribes — the read happens first and the root is never a readable
regular file. -/
theorem C7_root_gives_io_error_counterexample :
    file_to_attachment (FileSystem.mk [] []) ("/".data) =
      Except.error CodexErr.ioErr ∧
    CodexErr.ioErr ≠ CodexErr.other ("Invalid file name".data) :=
  ⟨rfl, by decide⟩

/-- C7 (amended): an unreadable path (in particular the root or empty path,
which never denote readable regular files) yields the I/O error; the
`Invalid file name` validation error occurs exactly for a *readable* path
with no extractable file-name component; every readable path with a
file-name component succeeds with `name` equal to the base file name. -/
theorem C7_encode_error_kinds :
    (∀ fs p, lookupFile fs p = none →
      file_to_attachment fs p = Except.error CodexErr.ioErr) ∧
    (∀ fs p content, lookupFile fs p = some content → fileName p = none →
      file_to_attachment fs p =
        Except.error (CodexErr.other ("Invalid file name".data))) ∧
    (∀ fs p content nm, lookupFile fs p = some content → fileName p = some nm →
      file_to_attachment fs p = Except.ok (AttachmentJson.mk (some nm)
        (some (("data:".data) ++ mimeFromPath p ++ (";base64,".data) ++
          encodeBase64 content)))) := by
  refine ⟨fun fs p h => ?_, fun fs p content h hn => ?_,
    fun fs p content nm h hn => ?_⟩
  · unfold file_to_attachment file_to_data_url
    rw [h]
  · unfold file_to_attachment file_to_data_url
    rw [h]
    simp only
    rw [hn]
  · unfold file_to_attachment file_to_data_url
    rw [h]
    simp only
    rw [hn]

/-- Witness for the amended C7 at concrete inputs. -/
theorem C7_encode_error_kinds_witness :
    (lookupFile (FileSystem.mk [(("/d/a.txt".data), [65])] []) ("/d/a.txt".data) =
      some [65]) ∧
    (fileName ("/d/a.txt".data) = some ("a.txt".data)) ∧
    file_to_attachment (FileSystem.mk [(("/d/a.txt".data), [65])] [])
      ("/d/a.txt".data) = Except.ok (AttachmentJson.mk (some ("a.txt".data))
        (some (("data:".data) ++ mimeFromPath ("/d/a.txt".data) ++
          (";base64,".data) ++ encodeBase64 [65]))) :=
  ⟨rfl, by decide,
    C7_encode_error_kinds.2.2 (FileSystem.mk [(("/d/a.txt".data), [65])] [])
      ("/d/a.txt".data) [65] ("a.txt".data) rfl (by decide)⟩

/-- C4 counterexample: a descriptor accepted by the decoder whose `name` is
an absolute path makes `process_attachment` write *outside* the target
directory — `Path::join` replaces the save directory entirely, so the
written path `/evil` is not under `/safe`. -/
theorem C4_absolute_name_escapes_counterexample :
    process_attachment (FileSystem.mk [] [])
      (AttachmentJson.mk (some ("/evil".data))
        (some ("data:text/plain;base64,QQ==".data)))
      ("/safe".data) =
      Except.ok (("/evil".data),
        FileSystem.mk [(("/evil".data), [65])] [("/safe".data)]) ∧
    (("/safe".data) ++ [('/')]).isPrefixOf ("/evil".data) = false :=
  ⟨rfl, by decide⟩

/-- C4 (amended): for every decodable descriptor, `save_data_url_to_file`
records the target directory as created, writes the decoded bytes to
`dir/name` (overwriting whatever was there), and modifies no other path;
the written path is under the target directory *provided* the name is a
plain relative name (no leading `/`) — an absolute name replaces the
directory entirely, as the counterexample shows. -/
theorem C4_save_frame_and_overwrite (fs : FileSystem)
    (dir nm content : List Char) (bytes : List Nat)
    (hp : parseDataUrl content = Except.ok bytes)
    (hn : nm.head? ≠ some ('/')) (hd : dir ≠ [])
    (hds : dir.getLast? ≠ some ('/')) :
    save_data_url_to_file fs content nm dir =
      Except.ok (dir ++ ('/') :: nm,
        writeFile (createDirAll fs dir) (dir ++ ('/') :: nm) bytes) ∧
    lookupFile (writeFile (createDirAll fs dir) (dir ++ ('/') :: nm) bytes)
      (dir ++ ('/') :: nm) = some bytes ∧
    (∀ q, q ≠ dir ++ ('/') :: nm →
      lookupFile (writeFile (createDirAll fs dir) (dir ++ ('/') :: nm) bytes) q =
        lookupFile fs q) ∧
    dir ∈ (createDirAll fs dir).dirs ∧
    (dir ++ [('/')]).isPrefixOf (dir ++ ('/') :: nm) = true := by
  have hjoin : pathJoin dir nm = dir ++ ('/') :: nm := by
    unfold pathJoin
    rw [if_neg hn, if_neg hd, if_neg hds]
  refine ⟨?_, ?_, fun q hq => ?_, ?_, ?_⟩
  · unfold save_data_url_to_file
    rw [hp, hjoin]
  · simp [lookupFile, writeFile]
  · have hbeq : (q == dir ++ ('/') :: nm) = false := by
      simp [hq]
    simp [lookupFile, writeFile, createDirAll, List.lookup, hbeq]
  · simp [createDirAll]
  · rw [List.isPrefixOf_iff_prefix]
    have : dir ++ ('/') :: nm = (dir ++ [('/')]) ++ nm := by
      simp
    rw [this]
    exact List.prefix_append _ _

/-- Witness for the amended C4 at a concrete descriptor and directory. -/
theorem C4_save_frame_and_overwrite_witness :
    (parseDataUrl ("data:text/plain;base64,QQ==".data) = Except.ok [65]) ∧
    (("a.txt".data).head? ≠ some ('/')) ∧
    (("/safe".data) ≠ ([] : List Char)) ∧
    (("/safe".data).getLast? ≠ some ('/')) ∧
    save_data_url_to_file (FileSystem.mk [] [])
      ("data:text/plain;base64,QQ==".data) ("a.txt".data) ("/safe".data) =
      Except.ok (("/safe".data) ++ ('/') :: ("a.txt".data),
        writeFile (createDirAll (FileSystem.mk [] []) ("/safe".data))
          (("/safe".data) ++ ('/') :: ("a.txt".data)) [65]) :=
  ⟨rfl, by decide, by decide, by decide,
    (C4_save_frame_and_overwrite (FileSystem.mk [] [])
      ("/safe".data) ("a.txt".data) ("data:text/plain;base64,QQ==".data) [65]
      rfl (by decide) (by decide) (by decide)).1⟩

/-! Inversion lemmas for the batch operations. -/

theorem files_to_attachments_cons_ok {fs : FileSystem} {q : List Char}
    {pre : List (List Char)} {l : List AttachmentJson}
    (h : files_to_attachments fs (q :: pre) = Except.ok l) :
    ∃ a l₂, file_to_attachment fs q = Except.ok a ∧
      files_to_attachments fs pre = Except.ok l₂ ∧ l = a :: l₂ := by
  unfold files_to_attachments at h
  cases h1 : file_to_attachment fs q with
  | error e => rw [h1] at h; exact absurd h (by simp)
  | ok a =>
      rw [h1] at h
      cases h2 : files_to_attachments fs pre with
      | error e => rw [h2] at h; exact absurd h (by simp [Except.map])
      | ok l₂ =>
          rw [h2] at h
          simp only [Except.map] at h
          exact ⟨a, l₂, rfl, rfl, (Except.ok.inj h).symm⟩

theorem process_attachments_cons_ok {fs : FileSystem} {q : AttachmentJson}
    {pre : List AttachmentJson} {dir : List Char}
    {ps : List (List Char)} {fs2 : FileSystem}
    (h : process_attachments fs (q :: pre) dir = Except.ok (ps, fs2)) :
    ∃ p fsq ps₂, process_attachment fs q dir = Except.ok (p, fsq) ∧
      process_attachments fsq pre dir = Except.ok (ps₂, fs2) ∧ ps = p :: ps₂ := by
  unfold process_attachments at h
  split at h
  · exact absurd h (by simp)
  · rename_i p fs1 heq
    cases h2 : process_attachments fs1 pre dir with
    | error e => rw [h2] at h; exact absurd h (by simp [Except.map])
    | ok r2 =>
        obtain ⟨ps₂, fs2a⟩ := r2
        rw [h2] at h
        simp only [Except.map] at h
        obtain ⟨ha, hb⟩ := Prod.mk.inj (Except.ok.inj h)
        refine ⟨p, fs1, ps₂, heq, ?_, ha.symm⟩
        rw [h2, hb]

/-- C8: the batch operations are fail-fast — with a prefix that encodes (or
saves) successfully and a next element that fails, the whole batch returns
exactly that element's typed error, for *every* continuation of the list
(so later elements are never processed and no partial result is returned);
and on total success the result has one entry per input, in input order. -/
theorem C8_batches_fail_fast :
    (∀ (fs : FileSystem) (pre : List (List Char)) (p : List Char)
        (rest : List (List Char)) (l : List AttachmentJson) (e : CodexErr),
      files_to_attachments fs pre = Except.ok l →
      file_to_attachment fs p = Except.error e →
      files_to_attachments fs (pre ++ p :: rest) = Except.error e) ∧
    (∀ (fs : FileSystem) (paths : List (List Char)) (l : List AttachmentJson),
      files_to_attachments fs paths = Except.ok l →
      l.length = paths.length ∧
      ∀ i (hi : i < paths.length) (hl : i < l.length),
        file_to_attachment fs (paths.get ⟨i, hi⟩) = Except.ok (l.get ⟨i, hl⟩)) ∧
    (∀ (fs : FileSystem) (dir : List Char) (pre : List AttachmentJson)
        (p : AttachmentJson) (rest : List AttachmentJson)
        (ps : List (List Char)) (fs1 : FileSystem) (e : CodexErr),
      process_attachments fs pre dir = Except.ok (ps, fs1) →
      process_attachment fs1 p dir = Except.error e →
      process_attachments fs (pre ++ p :: rest) dir = Except.error e) ∧
    (∀ (fs : FileSystem) (dir : List Char) (atts : List AttachmentJson)
        (ps : List (List Char)) (fs2 : FileSystem),
      process_attachments fs atts dir = Except.ok (ps, fs2) →
      ps.length = atts.length) := by
  refine ⟨?_, ?_, ?_, ?_⟩
  · intro fs pre
    induction pre with
    | nil =>
        intro p rest l e _ hp
        simp [files_to_attachments, hp]
    | cons q pre ih =>
        intro p rest l e hok hp
        obtain ⟨a, l₂, h1, h2, rfl⟩ := files_to_attachments_cons_ok hok
        have := ih p rest l₂ e h2 hp
        simp [files_to_attachments, h1, this, Except.map]
  · intro fs paths
    induction paths with
    | nil =>
        intro l h
        unfold files_to_attachments at h
        have hl : l = [] := (Except.ok.inj h).symm
        subst hl
        exact ⟨rfl, fun i hi _ => absurd hi (by simp)⟩
    | cons q paths ih =>
        intro l h
        obtain ⟨a, l₂, h1, h2, rfl⟩ := files_to_attachments_cons_ok h
        obtain ⟨hlen, hget⟩ := ih l₂ h2
        refine ⟨by simp [hlen], fun i hi hl => ?_⟩
        cases i with
        | zero => simpa [List.get] using h1
        | succ j =>
            have := hget j (by simpa using hi) (by simpa using hl)
            simpa [List.get] using this
  · intro fs dir pre
    induction pre generalizing fs with
    | nil =>
        intro p rest ps fs1 e hok hp
        unfold process_attachments at hok
        obtain ⟨hps, hfs⟩ := Prod.mk.inj (Except.ok.inj hok)
        subst hfs
        simp [process_attachments, hp]
    | cons q pre ih =>
        intro p rest ps fs1 e hok hp
        obtain ⟨pq, fsq, ps₂, h1, h2, rfl⟩ := process_attachments_cons_ok hok
        have := ih fsq p rest ps₂ fs1 e h2 hp
        simp [process_attachments, h1, this, Except.map]
  · intro fs dir atts
    induction atts generalizing fs with
    | nil =>
        intro ps fs2 h
        unfold process_attachments at h
        obtain ⟨hps, hfs⟩ := Prod.mk.inj (Except.ok.inj h)
        simp [hps.symm]
    | cons q atts ih =>
        intro ps fs2 h
        obtain ⟨pq, fsq, ps₂, _, h2, rfl⟩ := process_attachments_cons_ok h
        simp [ih fsq ps₂ fs2 h2]

/-- Witness for C8: a one-element successful prefix followed by a missing
file aborts the batch with that element's I/O error, whatever follows. -/
theorem C8_batches_fail_fast_witness :
    (files_to_attachments (FileSystem.mk [(("/d/a.txt".data), [65])] [])
        [("/d/a.txt".data)] =
      Except.ok [AttachmentJson.mk (some ("a.txt".data))
        (some ("data:text/plain;base64,QQ==".data))]) ∧
    (file_to_attachment (FileSystem.mk [(("/d/a.txt".data), [65])] [])
        ("/missing".data) = Except.error CodexErr.ioErr) ∧
    files_to_attachments (FileSystem.mk [(("/d/a.txt".data), [65])] [])
        ([("/d/a.txt".data)] ++ ("/missing".data) :: [("/also-skipped".data)]) =
      Except.error CodexErr.ioErr :=
  ⟨rfl, rfl,
    C8_batches_fail_fast.1 (FileSystem.mk [(("/d/a.txt".data), [65])] [])
      [("/d/a.txt".data)] ("/missing".data) [("/also-skipped".data)]
      [AttachmentJson.mk (some ("a.txt".data))
        (some ("data:text/plain;base64,QQ==".data))] CodexErr.ioErr rfl rfl⟩

/-- C9: a missing home directory is never fatal — with no resolvable home,
`detect_local_file_paths` consists of exactly the Unix, relative and
Windows grammar results (every `~/`-match is silently dropped), and
`default_attachment_dir` falls back to `./.codex/attachments`. -/
theorem C9_missing_home_fallbacks :
    (∀ (fs : FileSystem) (input : List Char),
      detect_local_file_paths fs none input =
        detectWithGrammar fs unixMatchLen (replaceAll urlMatchLen input) ++
        detectWithGrammar fs relMatchLen (replaceAll urlMatchLen input) ++
        detectWithGrammar fs winMatchLen (replaceAll urlMatchLen input)) ∧
    default_attachment_dir none = ("./.codex/attachments".data) := by
  constructor
  · intro fs input
    have hhome : ∀ s, detectHome fs none s = [] := by
      intro s
      simp [detectHome]
    simp only [detect_local_file_paths]
    rw [hhome]
    simp
  · rfl

/-- C6: URL substrings are stripped before any path grammar runs, and the
stripped copy is used only for matching — on
`"see https://example.com/a/b.txt"` the stripped text is `"see "`, and no
filesystem state and no home directory can make the detector report
`/a/b.txt` (the URL's path suffix) as a match. -/
theorem C6_url_stripping_guards_detection (fs : FileSystem)
    (home : Option (List Char)) :
    replaceAll urlMatchLen ("see https://example.com/a/b.txt".data) =
      ("see ".data) ∧
    ("/a/b.txt".data) ∉
      detect_local_file_paths fs home ("see https://example.com/a/b.txt".data) := by
  refine ⟨rfl, ?_⟩
  have h : detect_local_file_paths fs home
      ("see https://example.com/a/b.txt".data) = [] := rfl
  rw [h]
  exact List.not_mem_nil _

/-! Lemmas about the occurrence scan of the substitution engine. -/

theorem strFind_some_isPrefixOf {needle : List Char} :
    ∀ (hay : List Char) {i : Nat}, strFind needle hay = some i →
      needle.isPrefixOf (hay.drop i) = true
  | [], i, h => by
      unfold strFind at h
      split at h
      · rename_i hp
        obtain rfl : i = 0 := (Option.some.inj h).symm
        simpa using hp
      · exact absurd h (by simp)
  | c :: rest, i, h => by
      unfold strFind at h
      split at h
      · rename_i hp
        obtain rfl : i = 0 := (Option.some.inj h).symm
        simpa using hp
      · rename_i hp
        cases hr : strFind needle rest with
        | none => rw [hr] at h; exact absurd h (by simp)
        | some j =>
            rw [hr] at h
            simp only [Option.map] at h
            obtain rfl : i = j + 1 := (Option.some.inj h).symm
            have := strFind_some_isPrefixOf rest hr
            simpa [List.drop_succ_cons] using this

theorem strFind_of_isPrefixOf {needle : List Char} :
    ∀ (hay : List Char) (j : Nat), needle.isPrefixOf (hay.drop j) = true →
      ∃ i, i ≤ j ∧ strFind needle hay = some i
  | hay, 0, h => by
      refine ⟨0, Nat.le_refl 0, ?_⟩
      rw [List.drop_zero] at h
      cases hay with
      | nil => simp [strFind, h]
      | cons c rest => simp [strFind, h]
  | [], j + 1, h => by
      refine ⟨0, Nat.zero_le _, ?_⟩
      simp only [List.drop_nil] at h
      simp [strFind, h]
  | c :: rest, j + 1, h => by
      rw [List.drop_succ_cons] at h
      by_cases hp : needle.isPrefixOf (c :: rest) = true
      · exact ⟨0, Nat.zero_le _, by simp [strFind, hp]⟩
      · obtain ⟨i, hij, hfind⟩ := strFind_of_isPrefixOf rest j h
        refine ⟨i + 1, by omega, ?_⟩
        simp [strFind, hp, hfind]

theorem collectOccAux_mem {needle hay : List Char} :
    ∀ (fuel s p : Nat), p ∈ collectOccAux needle hay fuel s →
      s ≤ p ∧ needle.isPrefixOf (hay.drop p) = true
  | 0, s, p, h => absurd h (List.not_mem_nil p)
  | fuel + 1, s, p, h => by
      unfold collectOccAux at h
      cases hf : strFind needle (hay.drop s) with
      | none => rw [hf] at h; exact absurd h (List.not_mem_nil p)
      | some pos =>
          rw [hf] at h
          rcases List.mem_cons.mp h with heq | hm
          · subst heq
            have hpfx := strFind_some_isPrefixOf _ hf
            rw [List.drop_drop] at hpfx
            exact ⟨Nat.le_add_right s pos, hpfx⟩
          · obtain ⟨hsp, hpfx⟩ := collectOccAux_mem fuel (s + pos + 1) p hm
            exact ⟨by omega, hpfx⟩

theorem collectOccAux_cons {needle hay : List Char} {fuel s p : Nat}
    {ps : List Nat} (h : collectOccAux needle hay (fuel + 1) s = p :: ps) :
    ps = collectOccAux needle hay fuel (p + 1) := by
  unfold collectOccAux at h
  cases hf : strFind needle (hay.drop s) with
  | none => rw [hf] at h; exact absurd h (by simp)
  | some pos =>
      rw [hf] at h
      obtain ⟨hp, hps⟩ := List.cons.inj h
      subst hp
      exact hps.symm

theorem collectOccAux_complete {needle hay : List Char} (hne : needle ≠ []) :
    ∀ (fuel s p : Nat), s ≤ p → needle.isPrefixOf (hay.drop p) = true →
      hay.length + 1 - s ≤ fuel → p ∈ collectOccAux needle hay fuel s
  | 0, s, p, hsp, hpfx, hfuel => by
      exfalso
      have hdrop : hay.drop p = [] := List.drop_eq_nil_of_le (by omega)
      rw [hdrop] at hpfx
      cases needle with
      | nil => exact hne rfl
      | cons c cs => simp [List.isPrefixOf] at hpfx
  | fuel + 1, s, p, hsp, hpfx, hfuel => by
      have hpfx2 : needle.isPrefixOf ((hay.drop s).drop (p - s)) = true := by
        rw [List.drop_drop]
        have hadd : s + (p - s) = p := by omega
        rw [hadd]
        exact hpfx
      obtain ⟨i, hij, hfind⟩ := strFind_of_isPrefixOf _ (p - s) hpfx2
      unfold collectOccAux
      rw [hfind]
      rcases Nat.eq_or_lt_of_le (show s + i ≤ p by omega) with heq | hlt
      · subst heq
        exact List.mem_cons_self _ _
      · exact List.mem_cons_of_mem _
          (collectOccAux_complete hne fuel (s + i + 1) p (by omega) hpfx
            (by omega))

/-- C3: the substitution engine records a span for every literal occurrence
of a pair's (non-empty) path — position `p` is recorded iff the path
literally occurs at `p` — and for a text containing one pair's path exactly
twice with non-overlapping spans, both occurrences are replaced by the url
and every character outside the two spans is unchanged (the result is the
text around and between the spans with the url spliced in), regardless of
text length. -/
theorem C3_substitute_replaces_every_occurrence :
    (∀ (needle hay : List Char) (p : Nat), needle ≠ [] →
      (p ∈ collectOccurrences needle hay 0 ↔
        needle.isPrefixOf (hay.drop p) = true)) ∧
    (∀ (input path url : List Char) (p1 p2 : Nat), path ≠ [] →
      collectOccurrences path input 0 = [p1, p2] →
      p1 + path.length ≤ p2 →
      substitute_file_paths_with_urls input [(path, url)] =
        input.take p1 ++ url ++
        (input.drop (p1 + path.length)).take (p2 - (p1 + path.length)) ++
        url ++ input.drop (p2 + path.length)) := by
  constructor
  · intro needle hay p hne
    constructor
    · intro hmem
      unfold collectOccurrences at hmem
      exact (collectOccAux_mem _ _ p hmem).2
    · intro hpfx
      unfold collectOccurrences
      exact collectOccAux_complete hne _ 0 p (Nat.zero_le p) hpfx (Nat.le_refl _)
  · intro input path url p1 p2 hpath hocc hno
    have hocc2 : collectOccAux path input (input.length + 1) 0 = [p1, p2] := by
      unfold collectOccurrences at hocc
      simpa using hocc
    have h1 := @collectOccAux_mem path input
      (input.length + 1) 0 p1 (by rw [hocc2]; simp)
    have htail := collectOccAux_cons hocc2
    have h2 := @collectOccAux_mem path input
      input.length (p1 + 1) p2 (by rw [← htail]; simp)
    obtain ⟨hp2s, hpfx2⟩ := h2
    have hnlen : 1 ≤ path.length := by
      cases path with
      | nil => exact absurd rfl hpath
      | cons c cs => simp
    have hlen2 : path.length ≤ input.length - p2 := by
      have := List.IsPrefix.length_le (List.isPrefixOf_iff_prefix.mp hpfx2)
      simpa [List.length_drop] using this
    have hp2len : p2 + path.length ≤ input.length := by omega
    have hp12 : p1 < p2 := by omega
    have hle : ¬(p2 ≤ p1) := by omega
    have hmain : substitute_file_paths_with_urls input [(path, url)] =
        List.foldl (fun res sp => replaceRange res sp.1 sp.2.1 sp.2.2.2) input
          (sortSpansDesc [(p1, p1 + path.length, path, url),
            (p2, p2 + path.length, path, url)]) := by
      simp only [substitute_file_paths_with_urls, List.foldl]
      rw [hocc]
      rfl
    have hsort : sortSpansDesc [(p1, p1 + path.length, path, url),
        (p2, p2 + path.length, path, url)] =
        [(p2, p2 + path.length, path, url), (p1, p1 + path.length, path, url)] := by
      simp [sortSpansDesc, insertSpanDesc, hle]
    rw [hmain, hsort]
    simp only [List.foldl]
    unfold replaceRange
    have htake : ((input.take p2 ++ url ++ input.drop (p2 + path.length)).take p1) =
        input.take p1 := by
      rw [List.take_append_of_le_length
        (by rw [List.length_append, List.length_take]; omega)]
      rw [List.take_append_of_le_length (by rw [List.length_take]; omega)]
      rw [List.take_take]
      congr 1
      omega
    have hdrop : ((input.take p2 ++ url ++ input.drop (p2 + path.length)).drop
          (p1 + path.length)) =
        (input.drop (p1 + path.length)).take (p2 - (p1 + path.length)) ++ url ++
          input.drop (p2 + path.length) := by
      rw [List.drop_append_of_le_length
        (by rw [List.length_append, List.length_take]; omega)]
      rw [List.drop_append_of_le_length (by rw [List.length_take]; omega)]
      rw [List.drop_take]
    rw [htake, hdrop]
    simp [List.append_assoc]

/-- Witness for C3 at a concrete text containing the path twice. -/
theorem C3_substitute_replaces_every_occurrence_witness :
    (("/a".data) ≠ ([] : List Char)) ∧
    (collectOccurrences ("/a".data) ("x /a y /a z".data) 0 = [2, 7]) ∧
    (2 + ("/a".data).length ≤ 7) ∧
    substitute_file_paths_with_urls ("x /a y /a z".data)
        [(("/a".data), ("URL".data))] =
      ("x /a y /a z".data).take 2 ++ ("URL".data) ++
      (("x /a y /a z".data).drop (2 + ("/a".data).length)).take
        (7 - (2 + ("/a".data).length)) ++
      ("URL".data) ++ ("x /a y /a z".data).drop (7 + ("/a".data).length) :=
  ⟨by decide, by decide, by decide,
    C3_substitute_replaces_every_occurrence.2 ("x /a y /a z".data) ("/a".data)
      ("URL".data) 2 7 (by decide) (by decide) (by decide)⟩
